import Mathlib

/-!
Verification development for the data acquisition pipeline in
pokeapi_fetch.py.  The Python source is embedded shallowly: pure
helper functions become Lean functions over lists and strings, the
stateful main loop becomes explicit state passing, network fetches
become oracle functions returning Option values, and wall-clock time
in the rate limiter becomes rational-number parameters.
-/

namespace Pokedex

/-- Python str.capitalize on a character list: the first character is
uppercased and every later character is lowercased. -/
def pyCapList : List Char → List Char
  | [] => []
  | c :: cs => c.toUpper :: cs.map Char.toLower

/-- Python str.capitalize for strings. -/
def pyCap (s : String) : String := String.mk (pyCapList s.toList)

/-- Python str.lower for strings. -/
def pyLower (s : String) : String := String.mk (s.toList.map Char.toLower)

/-- Exact rational multiplication written through mkRat so that the
kernel can evaluate it; proved equal to ordinary multiplication in
qmul_eq.  Used to model the float products of the Python source, all
of which are exact binary fractions. -/
def qmul (a b : ℚ) : ℚ := mkRat (a.num * b.num) (a.den * b.den)

theorem qmul_eq (a b : ℚ) : qmul a b = a * b := by
  unfold qmul
  rw [Rat.mkRat_eq_div]
  push_cast
  rw [← div_mul_div_comm (a.num : ℚ) a.den, Rat.num_div_den, Rat.num_div_den]

/-- The multiplier one half, written in kernel-evaluable form. -/
def half : ℚ := mkRat 1 2

/-- The static type effectiveness chart TYPE_EFFECTIVENESS of
pokeapi_fetch.py: attacking type to a map of defending type to damage
multiplier.  Multipliers are exact rationals; 0.5 in the source is
half here. -/
def TYPE_EFFECTIVENESS : List (String × List (String × ℚ)) :=
  [ ("normal", [("rock", half), ("ghost", 0), ("steel", half)]),
    ("fire", [("fire", half), ("water", half), ("grass", 2), ("ice", 2), ("bug", 2),
      ("rock", half), ("dragon", half), ("steel", 2)]),
    ("water", [("fire", 2), ("water", half), ("grass", half), ("ground", 2),
      ("rock", 2), ("dragon", half)]),
    ("electric", [("water", 2), ("electric", half), ("grass", half), ("ground", 0),
      ("flying", 2), ("dragon", half)]),
    ("grass", [("fire", half), ("water", 2), ("grass", half), ("poison", half),
      ("ground", 2), ("flying", half), ("bug", half), ("rock", 2), ("dragon", half),
      ("steel", half)]),
    ("ice", [("fire", half), ("water", half), ("grass", 2), ("ice", half),
      ("ground", 2), ("flying", 2), ("dragon", 2), ("steel", half)]),
    ("fighting", [("normal", 2), ("ice", 2), ("poison", half), ("flying", half),
      ("psychic", half), ("bug", half), ("rock", 2), ("ghost", 0), ("dark", 2),
      ("steel", 2), ("fairy", half)]),
    ("poison", [("grass", 2), ("poison", half), ("ground", half), ("rock", half),
      ("ghost", half), ("steel", 0), ("fairy", 2)]),
    ("ground", [("fire", 2), ("electric", 2), ("grass", half), ("poison", 2),
      ("flying", 0), ("bug", half), ("rock", 2), ("steel", 2)]),
    ("flying", [("electric", half), ("grass", 2), ("fighting", 2), ("bug", 2),
      ("rock", half), ("steel", half)]),
    ("psychic", [("fighting", 2), ("poison", 2), ("psychic", half), ("dark", 0),
      ("steel", half)]),
    ("bug", [("fire", half), ("grass", 2), ("fighting", half), ("poison", half),
      ("flying", half), ("psychic", 2), ("ghost", half), ("dark", 2), ("steel", half),
      ("fairy", half)]),
    ("rock", [("fire", 2), ("ice", 2), ("fighting", half), ("ground", half),
      ("flying", 2), ("bug", 2), ("steel", half)]),
    ("ghost", [("normal", 0), ("psychic", 2), ("ghost", 2), ("dark", half)]),
    ("dragon", [("dragon", 2), ("steel", half), ("fairy", 0)]),
    ("dark", [("fighting", half), ("psychic", 2), ("ghost", 2), ("dark", half),
      ("fairy", half)]),
    ("steel", [("fire", half), ("water", half), ("electric", half), ("ice", 2),
      ("rock", 2), ("steel", half), ("fairy", 2)]),
    ("fairy", [("fire", half), ("fighting", 2), ("poison", half), ("dragon", 2),
      ("dark", 2), ("steel", half)]) ]

/-- The list all_types used by calculate_weaknesses and
calculate_resistances: the 18 canonical attacking types. -/
def allTypes : List String :=
  ["normal", "fire", "water", "electric", "grass", "ice", "fighting",
   "poison", "ground", "flying", "psychic", "bug", "rock", "ghost",
   "dragon", "dark", "steel", "fairy"]

/-- One iteration of the inner multiplication loop shared by
calculate_weaknesses and calculate_resistances: if the lowered
defending name appears in the row of the attacking type, multiply
the table entry into the running product, else leave it unchanged. -/
def effStep (atk : String) (m : ℚ) (dft : String) : ℚ :=
  match List.lookup atk TYPE_EFFECTIVENESS with
  | none => m
  | some row =>
    match List.lookup (pyLower dft) row with
    | none => m
    | some v => qmul m v

/-- The combined multiplier of an attacking type against a list of
defending types, starting from 1.0. -/
def effMult (atk : String) (pokemonTypes : List String) : ℚ :=
  pokemonTypes.foldl (effStep atk) 1

/-- calculate_weaknesses of pokeapi_fetch.py: an insertion-ordered map
from capitalized attacking type to combined multiplier, holding the
types whose combined multiplier is at least 2. -/
def calculate_weaknesses (pokemonTypes : List String) : List (String × ℚ) :=
  allTypes.foldl
    (fun w atk =>
      let m := effMult atk pokemonTypes
      if 2 ≤ m then w ++ [(pyCap atk, m)] else w)
    []

/-- calculate_resistances of pokeapi_fetch.py: the pair of the
resistances map (combined multiplier strictly between 0 and 1) and the
immunities map (combined multiplier exactly 0, stored as the literal
value 0). -/
def calculate_resistances (pokemonTypes : List String) :
    List (String × ℚ) × List (String × ℚ) :=
  allTypes.foldl
    (fun ri atk =>
      let m := effMult atk pokemonTypes
      if m = 0 then (ri.1, ri.2 ++ [(pyCap atk, 0)])
      else if m < 1 then (ri.1 ++ [(pyCap atk, m)], ri.2) else ri)
    ([], [])

example : effMult "water" ["Fire"] = 2 := by decide
example : effMult "fire" ["Fire", "Water"] = mkRat 1 4 := by decide
example : effMult "electric" ["Ground"] = 0 := by decide
example : calculate_weaknesses ["Fire"] =
    [("Water", 2), ("Ground", 2), ("Rock", 2)] := by decide
example : calculate_resistances ["Ghost"] =
    ([("Poison", half), ("Bug", half)], [("Normal", 0), ("Fighting", 0)]) := by decide

/-- Every multiplier in the static chart is nonnegative. -/
lemma table_nonneg : ∀ p ∈ TYPE_EFFECTIVENESS, ∀ q ∈ p.2, (0:ℚ) ≤ q.2 := by decide

/-- A successful association list lookup yields a member pair. -/
lemma lookup_mem {β : Type} {l : List (String × β)} {k : String} {b : β}
    (h : List.lookup k l = some b) : (k, b) ∈ l := by
  rcases List.lookup_eq_some_iff.mp h with ⟨l₁, l₂, rfl, _⟩
  simp

/-- One multiplication step preserves nonnegativity. -/
lemma effStep_nonneg (atk : String) (d : String) {m : ℚ} (hm : 0 ≤ m) :
    0 ≤ effStep atk m d := by
  unfold effStep
  split
  · exact hm
  · rename_i row hrow
    split
    · exact hm
    · rename_i v hv
      rw [qmul_eq]
      exact mul_nonneg hm (table_nonneg _ (lookup_mem hrow) _ (lookup_mem hv))

/-- The combined multiplier is always nonnegative. -/
lemma effMult_nonneg (atk : String) (ts : List String) : 0 ≤ effMult atk ts := by
  unfold effMult
  have h : ∀ (l : List String) (m : ℚ), 0 ≤ m → 0 ≤ l.foldl (effStep atk) m := by
    intro l
    induction l with
    | nil => intro m hm; simpa using hm
    | cons d l ih =>
      intro m hm
      simp only [List.foldl_cons]
      exact ih _ (effStep_nonneg atk d hm)
  exact h ts 1 (by norm_num)

/-- calculate_weaknesses as a filterMap over the 18 attacking types. -/
lemma weaknesses_eq (ts : List String) :
    calculate_weaknesses ts = allTypes.filterMap
      (fun atk =>
        if 2 ≤ effMult atk ts then some (pyCap atk, effMult atk ts) else none) := by
  unfold calculate_weaknesses
  have h : ∀ (l : List String) (init : List (String × ℚ)),
      l.foldl
        (fun w atk =>
          let m := effMult atk ts
          if 2 ≤ m then w ++ [(pyCap atk, m)] else w) init
        = init ++ l.filterMap
            (fun atk =>
              if 2 ≤ effMult atk ts then some (pyCap atk, effMult atk ts) else none) := by
    intro l
    induction l with
    | nil => intro init; simp
    | cons a l ih =>
      intro init
      simp only [List.foldl_cons, List.filterMap_cons]
      by_cases h2 : 2 ≤ effMult a ts
      · simp [h2, ih]
      · simp [h2, ih]
  simpa using h allTypes []

/-- calculate_resistances as a pair of filterMaps over the 18
attacking types. -/
lemma resistances_eq (ts : List String) :
    calculate_resistances ts =
      (allTypes.filterMap
        (fun atk =>
          if effMult atk ts = 0 then none
          else if effMult atk ts < 1 then some (pyCap atk, effMult atk ts) else none),
       allTypes.filterMap
        (fun atk =>
          if effMult atk ts = 0 then some (pyCap atk, (0:ℚ)) else none)) := by
  unfold calculate_resistances
  have h : ∀ (l : List String) (init : List (String × ℚ) × List (String × ℚ)),
      l.foldl
        (fun ri atk =>
          let m := effMult atk ts
          if m = 0 then (ri.1, ri.2 ++ [(pyCap atk, 0)])
          else if m < 1 then (ri.1 ++ [(pyCap atk, m)], ri.2) else ri) init
        = (init.1 ++ l.filterMap
            (fun atk =>
              if effMult atk ts = 0 then none
              else if effMult atk ts < 1 then some (pyCap atk, effMult atk ts) else none),
           init.2 ++ l.filterMap
            (fun atk =>
              if effMult atk ts = 0 then some (pyCap atk, (0:ℚ)) else none)) := by
    intro l
    induction l with
    | nil => intro init; simp
    | cons a l ih =>
      intro init
      simp only [List.foldl_cons, List.filterMap_cons]
      by_cases h0 : effMult a ts = 0
      · simp [h0, ih]
      · by_cases h1 : effMult a ts < 1
        · simp [h0, h1, ih]
        · simp [h0, h1, ih]
  simpa using h allTypes ([], [])

/-- Capitalization is injective on the 18 canonical type names. -/
lemma pyCap_inj : ∀ a ∈ allTypes, ∀ b ∈ allTypes, pyCap a = pyCap b → a = b := by
  decide

/-- Key membership in the weaknesses map. -/
lemma mem_wkeys (ts : List String) (k : String) :
    k ∈ (calculate_weaknesses ts).map Prod.fst ↔
      ∃ a ∈ allTypes, pyCap a = k ∧ 2 ≤ effMult a ts := by
  rw [weaknesses_eq]
  constructor
  · intro hk
    rcases List.mem_map.mp hk with ⟨p, hp, hpk⟩
    rcases List.mem_filterMap.mp hp with ⟨a, ha, hfa⟩
    by_cases h2 : 2 ≤ effMult a ts
    · simp only [h2, if_pos] at hfa
      cases hfa
      exact ⟨a, ha, hpk, h2⟩
    · simp [h2] at hfa
  · rintro ⟨a, ha, rfl, h2⟩
    apply List.mem_map.mpr
    refine ⟨(pyCap a, effMult a ts), ?_, rfl⟩
    exact List.mem_filterMap.mpr ⟨a, ha, by simp [h2]⟩

/-- Key membership in the resistances map. -/
lemma mem_rkeys (ts : List String) (k : String) :
    k ∈ (calculate_resistances ts).1.map Prod.fst ↔
      ∃ a ∈ allTypes, pyCap a = k ∧ effMult a ts ≠ 0 ∧ effMult a ts < 1 := by
  rw [resistances_eq]
  constructor
  · intro hk
    rcases List.mem_map.mp hk with ⟨p, hp, hpk⟩
    rcases List.mem_filterMap.mp hp with ⟨a, ha, hfa⟩
    by_cases h0 : effMult a ts = 0
    · simp [h0] at hfa
    · by_cases h1 : effMult a ts < 1
      · simp only [h0, h1, if_neg, if_pos, not_false_iff] at hfa
        cases hfa
        exact ⟨a, ha, hpk, h0, h1⟩
      · simp [h0, h1] at hfa
  · rintro ⟨a, ha, rfl, h0, h1⟩
    apply List.mem_map.mpr
    refine ⟨(pyCap a, effMult a ts), ?_, rfl⟩
    exact List.mem_filterMap.mpr ⟨a, ha, by simp [h0, h1]⟩

/-- Key membership in the immunities map. -/
lemma mem_ikeys (ts : List String) (k : String) :
    k ∈ (calculate_resistances ts).2.map Prod.fst ↔
      ∃ a ∈ allTypes, pyCap a = k ∧ effMult a ts = 0 := by
  rw [resistances_eq]
  constructor
  · intro hk
    rcases List.mem_map.mp hk with ⟨p, hp, hpk⟩
    rcases List.mem_filterMap.mp hp with ⟨a, ha, hfa⟩
    by_cases h0 : effMult a ts = 0
    · simp only [h0, if_pos] at hfa
      cases hfa
      exact ⟨a, ha, hpk, h0⟩
    · simp [h0] at hfa
  · rintro ⟨a, ha, rfl, h0⟩
    apply List.mem_map.mpr
    refine ⟨(pyCap a, 0), ?_, rfl⟩
    exact List.mem_filterMap.mpr ⟨a, ha, by simp [h0]⟩

/-- C1: for every list of defending types, each of the 18 attacking
types lands in the weaknesses map exactly when the combined multiplier
is at least 2, in the resistances map exactly when it is strictly
between 0 and 1, and in the immunities map exactly when it is 0; a
multiplier of exactly 1 puts the type in none of the maps, the three
key sets are pairwise disjoint, and every key is the capitalization of
one of the 18 canonical types. -/
theorem c1_type_classification (ts : List String) :
    (∀ atk ∈ allTypes,
      ((pyCap atk, effMult atk ts) ∈ calculate_weaknesses ts ↔ 2 ≤ effMult atk ts)
      ∧ ((pyCap atk, effMult atk ts) ∈ (calculate_resistances ts).1 ↔
          (0 < effMult atk ts ∧ effMult atk ts < 1))
      ∧ ((pyCap atk, (0:ℚ)) ∈ (calculate_resistances ts).2 ↔ effMult atk ts = 0)
      ∧ (effMult atk ts = 1 →
          pyCap atk ∉ (calculate_weaknesses ts).map Prod.fst
          ∧ pyCap atk ∉ (calculate_resistances ts).1.map Prod.fst
          ∧ pyCap atk ∉ (calculate_resistances ts).2.map Prod.fst))
    ∧ (∀ k, k ∈ (calculate_weaknesses ts).map Prod.fst →
        k ∉ (calculate_resistances ts).1.map Prod.fst
        ∧ k ∉ (calculate_resistances ts).2.map Prod.fst)
    ∧ (∀ k, k ∈ (calculate_resistances ts).1.map Prod.fst →
        k ∉ (calculate_resistances ts).2.map Prod.fst)
    ∧ (∀ k, k ∈ (calculate_weaknesses ts).map Prod.fst
          ∨ k ∈ (calculate_resistances ts).1.map Prod.fst
          ∨ k ∈ (calculate_resistances ts).2.map Prod.fst →
        k ∈ allTypes.map pyCap) := by
  refine ⟨?_, ?_, ?_, ?_⟩
  · intro atk hatk
    refine ⟨?_, ?_, ?_, ?_⟩
    · rw [weaknesses_eq]
      constructor
      · intro hmem
        rcases List.mem_filterMap.mp hmem with ⟨a, _, hfa⟩
        by_cases h2 : 2 ≤ effMult a ts
        · rw [if_pos h2] at hfa
          simp only [Option.some.injEq, Prod.mk.injEq] at hfa
          rcases hfa with ⟨hfst, hsnd⟩
          rwa [hsnd] at h2
        · simp [h2] at hfa
      · intro h2
        exact List.mem_filterMap.mpr ⟨atk, hatk, by simp [h2]⟩
    · rw [resistances_eq]
      constructor
      · intro hmem
        rcases List.mem_filterMap.mp hmem with ⟨a, _, hfa⟩
        by_cases h0 : effMult a ts = 0
        · simp [h0] at hfa
        · by_cases h1 : effMult a ts < 1
          · rw [if_neg h0, if_pos h1] at hfa
            simp only [Option.some.injEq, Prod.mk.injEq] at hfa
            rcases hfa with ⟨hfst, hsnd⟩
            rw [hsnd] at h0 h1
            exact ⟨lt_of_le_of_ne (effMult_nonneg atk ts) (Ne.symm h0), h1⟩
          · simp [h0, h1] at hfa
      · rintro ⟨h0, h1⟩
        refine List.mem_filterMap.mpr ⟨atk, hatk, ?_⟩
        simp [ne_of_gt h0, h1]
    · rw [resistances_eq]
      constructor
      · intro hmem
        rcases List.mem_filterMap.mp hmem with ⟨a, ha, hfa⟩
        by_cases h0 : effMult a ts = 0
        · rw [if_pos h0] at hfa
          simp only [Option.some.injEq, Prod.mk.injEq] at hfa
          rcases hfa with ⟨hfst, _⟩
          have : a = atk := pyCap_inj a ha atk hatk hfst
          rwa [this] at h0
        · simp [h0] at hfa
      · intro h0
        exact List.mem_filterMap.mpr ⟨atk, hatk, by simp [h0]⟩
    · intro h1
      refine ⟨?_, ?_, ?_⟩
      · intro hk
        rcases (mem_wkeys ts _).mp hk with ⟨a, ha, hcap, h2⟩
        have : a = atk := pyCap_inj a ha atk hatk hcap
        rw [this, h1] at h2
        norm_num at h2
      · intro hk
        rcases (mem_rkeys ts _).mp hk with ⟨a, ha, hcap, _, hlt⟩
        have : a = atk := pyCap_inj a ha atk hatk hcap
        rw [this, h1] at hlt
        norm_num at hlt
      · intro hk
        rcases (mem_ikeys ts _).mp hk with ⟨a, ha, hcap, h0⟩
        have : a = atk := pyCap_inj a ha atk hatk hcap
        rw [this, h1] at h0
        norm_num at h0
  · intro k hk
    rcases (mem_wkeys ts k).mp hk with ⟨a, ha, hcap, h2⟩
    constructor
    · intro hk2
      rcases (mem_rkeys ts k).mp hk2 with ⟨b, hb, hcapb, _, h1⟩
      have : b = a := pyCap_inj b hb a ha (hcapb.trans hcap.symm)
      rw [this] at h1
      linarith
    · intro hk2
      rcases (mem_ikeys ts k).mp hk2 with ⟨b, hb, hcapb, h0⟩
      have : b = a := pyCap_inj b hb a ha (hcapb.trans hcap.symm)
      rw [this] at h0
      rw [h0] at h2
      norm_num at h2
  · intro k hk
    rcases (mem_rkeys ts k).mp hk with ⟨a, ha, hcap, h0, _⟩
    intro hk2
    rcases (mem_ikeys ts k).mp hk2 with ⟨b, hb, hcapb, h0b⟩
    have : b = a := pyCap_inj b hb a ha (hcapb.trans hcap.symm)
    rw [this] at h0b
    exact h0 h0b
  · intro k hk
    rcases hk with hk | hk | hk
    · rcases (mem_wkeys ts k).mp hk with ⟨a, ha, hcap, _⟩
      exact List.mem_map.mpr ⟨a, ha, hcap⟩
    · rcases (mem_rkeys ts k).mp hk with ⟨a, ha, hcap, _⟩
      exact List.mem_map.mpr ⟨a, ha, hcap⟩
    · rcases (mem_ikeys ts k).mp hk with ⟨a, ha, hcap, _⟩
      exact List.mem_map.mpr ⟨a, ha, hcap⟩

/-- Witness for C1 at a concrete dual type creature: against Grass
and Poison defending types, Fire attacks land in weaknesses with
multiplier 2 and Grass attacks land in resistances with multiplier a
quarter. -/
theorem c1_type_classification_witness :
    ("Fire", (2:ℚ)) ∈ calculate_weaknesses ["Grass", "Poison"]
    ∧ ("Grass", mkRat 1 4) ∈ (calculate_resistances ["Grass", "Poison"]).1 := by
  constructor
  · have h := ((c1_type_classification ["Grass", "Poison"]).1 "fire" (by decide)).1
    have e : (pyCap "fire", effMult "fire" ["Grass", "Poison"]) = ("Fire", (2:ℚ)) := by
      decide
    rw [e] at h
    exact h.mpr (by decide)
  · have h := ((c1_type_classification ["Grass", "Poison"]).1 "grass" (by decide)).2.1
    have e : (pyCap "grass", effMult "grass" ["Grass", "Poison"]) = ("Grass", mkRat 1 4) := by
      decide
    rw [e] at h
    exact h.mpr (by constructor <;> decide)

/-! ### Python string replace -/

/-- Boolean prefix test matching only as far as the pattern reaches,
so that an exhausted pattern yields true without forcing the rest of
the scanned list. -/
def strStarts : List Char → List Char → Bool
  | [], _ => true
  | _ :: _, [] => false
  | p :: ps, c :: rest => p == c && strStarts ps rest

/-- Python substring membership as used by the in operator. -/
def strContains (pat : List Char) : List Char → Bool
  | [] => pat.isEmpty
  | c :: rest => strStarts pat (c :: rest) || strContains pat rest

/-- Scanner for Python str.replace with a nonempty pattern p :: ps:
while the skip counter is positive the character belongs to an already
replaced occurrence and is dropped; at skip zero, an occurrence of the
pattern starting here emits r and sets the counter to drop the tail of
the occurrence, otherwise the character is kept. -/
def strReplaceGo (p : Char) (ps r : List Char) : List Char → Nat → List Char
  | [], _ => []
  | _ :: rest, Nat.succ k => strReplaceGo p ps r rest k
  | c :: rest, 0 =>
    if strStarts (p :: ps) (c :: rest) then r ++ strReplaceGo p ps r rest ps.length
    else c :: strReplaceGo p ps r rest 0

/-- Python str.replace on character lists for a nonempty pattern:
scan left to right, replacing every non overlapping occurrence of the
pattern by r and continuing after the replaced text. -/
def strReplace (p : Char) (ps r s : List Char) : List Char :=
  strReplaceGo p ps r s 0

/-- Python str.replace; the empty pattern case never occurs in the
embedded code. -/
def pyReplace (pat r s : List Char) : List Char :=
  match pat with
  | [] => s
  | p :: ps => strReplace p ps r s

/-- Replacing a single character pattern is a pointwise map. -/
lemma strReplace_single (c r : Char) (s : List Char) :
    strReplace c [] [r] s = s.map (fun x => if x = c then r else x) := by
  unfold strReplace
  induction s with
  | nil => rfl
  | cons x rest ih =>
    rw [strReplaceGo]
    by_cases hx : x = c
    · simp [strStarts, hx, ih]
    · simp [strStarts, hx, Ne.symm hx, ih]

/-! ### Localization resolver: get_localized_flavor_text -/

/-- One flavor text entry: language name, version name, raw text. -/
structure FlavorEntry where
  language : String
  version : String
  text : List Char

/-- The normalization applied by get_localized_flavor_text to a chosen
text: replace newline, then form feed, each by one space. -/
def normalizeFlavor (s : List Char) : List Char :=
  pyReplace ['\x0c'] [' '] (pyReplace ['\n'] [' '] s)

/-- The first loop of get_localized_flavor_text: first entry matching
both language and version. -/
def flavorScanBoth (lang version : String) : List FlavorEntry → Option (List Char)
  | [] => none
  | e :: rest =>
    if e.language == lang && e.version == version then some (normalizeFlavor e.text)
    else flavorScanBoth lang version rest

/-- The second loop of get_localized_flavor_text: first entry matching
the language alone. -/
def flavorScanLang (lang : String) : List FlavorEntry → Option (List Char)
  | [] => none
  | e :: rest =>
    if e.language == lang then some (normalizeFlavor e.text)
    else flavorScanLang lang rest

/-- The sentinel returned when no entry matches the language. -/
def sentinelText : List Char := "No description available.".toList

/-- get_localized_flavor_text of pokeapi_fetch.py. -/
def get_localized_flavor_text (entries : List FlavorEntry) (lang version : String) :
    List Char :=
  match flavorScanBoth lang version entries with
  | some t => t
  | none =>
    match flavorScanLang lang entries with
    | some t => t
    | none => sentinelText

/-- The first loop is the find-first on the double predicate. -/
lemma flavorScanBoth_eq (lang version : String) (entries : List FlavorEntry) :
    flavorScanBoth lang version entries =
      (entries.find? (fun e => e.language == lang && e.version == version)).map
        (fun e => normalizeFlavor e.text) := by
  induction entries with
  | nil => rfl
  | cons e rest ih =>
    rw [flavorScanBoth, List.find?]
    by_cases h : (e.language == lang && e.version == version) = true
    · simp [h]
    · simp only [Bool.not_eq_true] at h
      simp [h, ih]

/-- The second loop is the find-first on the language predicate. -/
lemma flavorScanLang_eq (lang : String) (entries : List FlavorEntry) :
    flavorScanLang lang entries =
      (entries.find? (fun e => e.language == lang)).map
        (fun e => normalizeFlavor e.text) := by
  induction entries with
  | nil => rfl
  | cons e rest ih =>
    rw [flavorScanLang, List.find?]
    by_cases h : (e.language == lang) = true
    · simp [h]
    · simp only [Bool.not_eq_true] at h
      simp [h, ih]

/-- Normalization is the pointwise substitution of newline and form
feed by a space. -/
lemma normalizeFlavor_eq_map (s : List Char) :
    normalizeFlavor s = s.map (fun c => if c = '\n' ∨ c = '\x0c' then ' ' else c) := by
  have h : normalizeFlavor s = strReplace '\x0c' [] [' '] (strReplace '\n' [] [' '] s) := rfl
  rw [h, strReplace_single, strReplace_single, List.map_map]
  apply List.map_congr_left
  intro c _
  by_cases h1 : c = '\n'
  · simp [h1]
  · by_cases h2 : c = '\x0c' <;> simp [h1, h2, Function.comp]

/-- C5: the flavor text resolver returns the normalized text of the
first entry matching both language and version, else the normalized
text of the first entry matching the language alone, else the fixed
sentinel; and normalization replaces every newline and form feed of
the chosen text by a single space, so neither character survives. -/
theorem c5_flavor_text_fallback (entries : List FlavorEntry) (lang version : String) :
    (get_localized_flavor_text entries lang version =
      match entries.find? (fun e => e.language == lang && e.version == version) with
      | some e => normalizeFlavor e.text
      | none =>
        match entries.find? (fun e => e.language == lang) with
        | some e => normalizeFlavor e.text
        | none => sentinelText)
    ∧ (∀ s : List Char,
        normalizeFlavor s = s.map (fun c => if c = '\n' ∨ c = '\x0c' then ' ' else c))
    ∧ (∀ s : List Char, '\n' ∉ normalizeFlavor s ∧ '\x0c' ∉ normalizeFlavor s) := by
  refine ⟨?_, normalizeFlavor_eq_map, ?_⟩
  · unfold get_localized_flavor_text
    rw [flavorScanBoth_eq, flavorScanLang_eq]
    cases entries.find? (fun e => e.language == lang && e.version == version) with
    | some e => rfl
    | none =>
      cases entries.find? (fun e => e.language == lang) with
      | some e => rfl
      | none => rfl
  · intro s
    rw [normalizeFlavor_eq_map]
    constructor
    · intro hmem
      rcases List.mem_map.mp hmem with ⟨c, _, hc⟩
      by_cases h : c = '\n' ∨ c = '\x0c'
      · simp [h] at hc
      · rw [if_neg h] at hc
        exact h (Or.inl hc)
    · intro hmem
      rcases List.mem_map.mp hmem with ⟨c, _, hc⟩
      by_cases h : c = '\n' ∨ c = '\x0c'
      · simp [h] at hc
      · rw [if_neg h] at hc
        exact h (Or.inr hc)

example :
    get_localized_flavor_text
      [⟨"en", "blue", "Seed creature.".toList⟩] "en" "red" =
      "Seed creature.".toList := by decide

example :
    get_localized_flavor_text [] "en" "red" = sentinelText := by decide

/-! ### Evolution chain resolver: fetch_evolution_chain -/

mutual
/-- One node of the upstream evolution graph: species name, species
id and the evolves_to children in upstream order. -/
inductive ChainLink where
  | node : String → Nat → ChainList → ChainLink
/-- The list of children of an evolution graph node. -/
inductive ChainList where
  | nil : ChainList
  | cons : ChainLink → ChainList → ChainList
end

/-- One entry of the flattened evolution chain: capitalized name and
species id. -/
structure EvoEntry where
  name : String
  id : Nat
deriving DecidableEq

mutual
/-- The nested parse_chain of fetch_evolution_chain: append the entry
of this node to the accumulating list, then walk the children in
order. -/
def parseChain (acc : List EvoEntry) : ChainLink → List EvoEntry
  | .node n i evs => parseChainList (acc ++ [⟨pyCap n, i⟩]) evs
/-- The loop over evolves_to inside parse_chain. -/
def parseChainList (acc : List EvoEntry) : ChainList → List EvoEntry
  | .nil => acc
  | .cons l ls => parseChainList (parseChain acc l) ls
end

mutual
/-- Depth first pre-order flattening, written directly: the node
entry comes first, then the flattened children in upstream order. -/
def flattenSpec : ChainLink → List EvoEntry
  | .node n i evs => ⟨pyCap n, i⟩ :: flattenSpecList evs
/-- Pre-order flattening of a child list, children in order. -/
def flattenSpecList : ChainList → List EvoEntry
  | .nil => []
  | .cons l ls => flattenSpec l ++ flattenSpecList ls
end

/-- fetch_evolution_chain of pokeapi_fetch.py: a falsy url or a failed
fetch of the chain resource yields the empty list, otherwise the chain
is walked by parse_chain starting from an empty accumulator. -/
def fetch_evolution_chain (url : Option String) (resolve : String → Option ChainLink) :
    List EvoEntry :=
  match url with
  | none => []
  | some u =>
    match resolve u with
    | none => []
    | some chain => parseChain [] chain

mutual
/-- The accumulating walk equals the accumulator followed by the
pre-order flattening. -/
theorem parseChain_eq : ∀ (acc : List EvoEntry) (l : ChainLink),
    parseChain acc l = acc ++ flattenSpec l
  | acc, .node n i evs => by
    rw [parseChain, flattenSpec, parseChainList_eq]
    simp
/-- Companion of parseChain_eq for child lists. -/
theorem parseChainList_eq : ∀ (acc : List EvoEntry) (ls : ChainList),
    parseChainList acc ls = acc ++ flattenSpecList ls
  | acc, .nil => by simp [parseChainList, flattenSpecList]
  | acc, .cons l ls => by
    rw [parseChainList, flattenSpecList, parseChain_eq, parseChainList_eq]
    simp
end

/-- C3: the evolution chain resolver returns the empty list on a
missing url or a failed fetch of the chain resource, and otherwise
flattens the graph in depth first pre-order: every node is emitted
before its descendants and sibling subtrees are emitted in the order
the upstream data lists them. -/
theorem c3_evolution_preorder (resolve : String → Option ChainLink) (u : String) :
    (resolve u = none → fetch_evolution_chain (some u) resolve = [])
    ∧ fetch_evolution_chain none resolve = []
    ∧ (∀ chain, resolve u = some chain →
        fetch_evolution_chain (some u) resolve = flattenSpec chain)
    ∧ (∀ n i evs, flattenSpec (ChainLink.node n i evs) =
        ⟨pyCap n, i⟩ :: flattenSpecList evs)
    ∧ (∀ l ls, flattenSpecList (ChainList.cons l ls) =
        flattenSpec l ++ flattenSpecList ls) := by
  refine ⟨?_, rfl, ?_, fun n i evs => rfl, fun l ls => rfl⟩
  · intro h
    show (match resolve u with
      | none => []
      | some chain => parseChain [] chain) = []
    rw [h]
  · intro chain h
    show (match resolve u with
      | none => []
      | some chain => parseChain [] chain) = flattenSpec chain
    rw [h]
    show parseChain [] chain = flattenSpec chain
    rw [parseChain_eq]
    simp

/-- A concrete branching evolution chain used by the C3 witness. -/
def chainW : ChainLink :=
  .node "ralts" 280 (.cons (.node "kirlia" 281
    (.cons (.node "gardevoir" 282 .nil) .nil))
    (.cons (.node "gallade" 475 .nil) .nil))

/-- A concrete chain resolver used by the C3 witness. -/
def resolveW : String → Option ChainLink :=
  fun u => if u = "chain/1/" then some chainW else none

/-- Witness for C3 on a branching chain: the root comes first, the
first branch together with its own child precedes the second branch,
and an unresolved url yields the empty list. -/
theorem c3_evolution_preorder_witness :
    fetch_evolution_chain (some "chain/1/") resolveW
      = [⟨"Ralts", 280⟩, ⟨"Kirlia", 281⟩, ⟨"Gardevoir", 282⟩, ⟨"Gallade", 475⟩]
    ∧ fetch_evolution_chain (some "chain/2/") resolveW = [] := by
  constructor
  · rw [(c3_evolution_preorder resolveW "chain/1/").2.2.1 chainW rfl]
    decide
  · exact (c3_evolution_preorder resolveW "chain/2/").1 rfl

/-! ### RateLimiter.wait_if_needed -/

/-- One invocation context for wait_if_needed: the clock reading at
entry, and the clock reading observed after sleeping a requested
duration.  A real sleep returns no earlier than requested, which is
the hypothesis used by the theorems. -/
structure RLStep where
  now : ℚ
  wake : ℚ → ℚ

/-- RateLimiter.wait_if_needed of pokeapi_fetch.py over an explicit
timestamp list: drop calls older than 60 seconds, and when the
remaining count has reached the cap, sleep 60 minus the age of the
oldest remaining call, refilter at the post sleep clock and record it;
otherwise record the entry clock.  The none result models the Python
IndexError when the cap is zero and the window is empty. -/
def wait_if_needed (cap : Nat) (calls : List ℚ) (s : RLStep) : Option (List ℚ) :=
  let calls1 := calls.filter (fun t => s.now - t < 60)
  if cap ≤ calls1.length then
    match calls1 with
    | [] => none
    | oldest :: _ =>
      let sleepTime := 60 - (s.now - oldest)
      if 0 < sleepTime then
        let now2 := s.wake sleepTime
        let calls2 := calls1.filter (fun t => now2 - t < 60)
        some (calls2 ++ [now2])
      else some (calls1 ++ [s.now])
  else some (calls1 ++ [s.now])

/-- A sequence of wait_if_needed invocations threaded through the
timestamp list. -/
def runRL (cap : Nat) : List RLStep → List ℚ → Option (List ℚ)
  | [], calls => some calls
  | s :: rest, calls =>
    match wait_if_needed cap calls s with
    | none => none
    | some calls2 => runRL cap rest calls2

/-- One invocation of wait_if_needed keeps the recorded window at or
below the cap. -/
lemma wait_if_needed_bound (cap : Nat) (hcap : 0 < cap) (calls : List ℚ) (s : RLStep)
    (hwake : ∀ d : ℚ, 0 < d → s.now + d ≤ s.wake d)
    (hlen : calls.length ≤ cap) :
    ∃ out, wait_if_needed cap calls s = some out ∧ out.length ≤ cap := by
  unfold wait_if_needed
  set calls1 := calls.filter (fun t => s.now - t < 60) with hc1
  have h1 : calls1.length ≤ calls.length := List.length_filter_le _ _
  by_cases hge : cap ≤ calls1.length
  · have hexact : calls1.length = cap := le_antisymm (h1.trans hlen) hge
    have hne : calls1 ≠ [] := by
      intro hnil
      rw [hnil] at hexact
      simp at hexact
      omega
    obtain ⟨oldest, rest1, hcons⟩ := List.exists_cons_of_ne_nil hne
    have holdmem : oldest ∈ calls1 := by rw [hcons]; exact List.mem_cons_self _ _
    have holdpred : s.now - oldest < 60 := by
      have := List.mem_filter.mp (hc1 ▸ holdmem)
      simpa using this.2
    have hsleep : 0 < 60 - (s.now - oldest) := by linarith
    have hwk := hwake _ hsleep
    have hfar : ¬ (s.wake (60 - (s.now - oldest)) - oldest < 60) := by
      push_neg
      linarith
    rw [if_pos hge, hcons]
    simp only [if_pos hsleep]
    refine ⟨_, rfl, ?_⟩
    rw [List.length_append]
    have hlf : ((oldest :: rest1).filter
        (fun t => s.wake (60 - (s.now - oldest)) - t < 60)).length ≤ rest1.length := by
      rw [List.filter_cons]
      simp only [decide_eq_true_eq, hfar, if_false]
      exact List.length_filter_le _ _
    have hr1 : rest1.length + 1 = cap := by
      rw [hcons] at hexact
      simpa using hexact
    simp only [List.length_cons, List.length_nil]
    omega
  · rw [if_neg hge]
    refine ⟨_, rfl, ?_⟩
    rw [List.length_append]
    simp only [List.length_cons, List.length_nil]
    omega

/-- Any run of invocations keeps the recorded window at or below the
cap. -/
lemma runRL_bound (cap : Nat) (hcap : 0 < cap) :
    ∀ (steps : List RLStep) (calls : List ℚ),
      (∀ s ∈ steps, ∀ d : ℚ, 0 < d → s.now + d ≤ s.wake d) →
      calls.length ≤ cap →
      ∃ out, runRL cap steps calls = some out ∧ out.length ≤ cap := by
  intro steps
  induction steps with
  | nil => intro calls _ hlen; exact ⟨calls, rfl, hlen⟩
  | cons s rest ih =>
    intro calls hwake hlen
    obtain ⟨mid, hmid, hmidlen⟩ :=
      wait_if_needed_bound cap hcap calls s
        (hwake s (List.mem_cons_self _ _)) hlen
    obtain ⟨out, hout, houtlen⟩ :=
      ih mid (fun t ht => hwake t (List.mem_cons_of_mem _ ht)) hmidlen
    refine ⟨out, ?_, houtlen⟩
    rw [runRL, hmid]
    exact hout

/-- C7: starting from an empty window, after every prefix of a
sequence of wait_if_needed invocations the recorded timestamps never
exceed the configured cap, hence no trailing 60 second window ever
holds more than cap recorded calls.  The sleep hypothesis states that
waking happens no earlier than requested. -/
theorem c7_rate_limiter_bound (cap : Nat) (steps : List RLStep)
    (hcap : 0 < cap)
    (hwake : ∀ s ∈ steps, ∀ d : ℚ, 0 < d → s.now + d ≤ s.wake d) :
    ∀ n : Nat, ∃ out, runRL cap (steps.take n) [] = some out
      ∧ out.length ≤ cap
      ∧ ∀ T : ℚ, (out.filter (fun t => T - 60 < t ∧ t ≤ T)).length ≤ cap := by
  intro n
  obtain ⟨out, hout, hlen⟩ :=
    runRL_bound cap hcap (steps.take n) []
      (fun s hs => hwake s (List.take_subset n steps hs)) (by simp)
  exact ⟨out, hout, hlen, fun T => (List.length_filter_le _ _).trans hlen⟩

/-- Concrete invocation schedule for the C7 witness: two calls ten
seconds apart against a cap of one, with exact sleeps. -/
def stepsW : List RLStep :=
  [⟨0, fun d => 0 + d⟩, ⟨10, fun d => 10 + d⟩]

/-- Witness for C7: with cap one and two invocations ten seconds
apart, every prefix of the run succeeds and stays within the cap. -/
theorem c7_rate_limiter_bound_witness :
    ∃ out, runRL 1 (stepsW.take 2) [] = some out
      ∧ out.length ≤ 1
      ∧ ∀ T : ℚ, (out.filter (fun t => T - 60 < t ∧ t ≤ T)).length ≤ 1 := by
  refine c7_rate_limiter_bound 1 stepsW (by decide) ?_ 2
  intro s hs d hd
  rcases List.mem_cons.mp hs with rfl | hs2
  · exact le_refl _
  · rcases List.mem_cons.mp hs2 with rfl | hs3
    · exact le_refl _
    · simp at hs3

/-! ### Sprite URL rewriting -/

/-- The raw content host checked by the source. -/
def rawHost : List Char := "raw.githubusercontent.com".toList

/-- The full raw content scheme and host replaced by the source. -/
def rawFull : List Char := "https://raw.githubusercontent.com/".toList

/-- The CDN replacement written by the source. -/
def cdnGh : List Char := "https://cdn.jsdelivr.net/gh/".toList

/-- The CDN scheme and host without the trailing slash, used to state
that rewritten URLs point at the CDN host. -/
def cdnQ : List Char := "https://cdn.jsdelivr.net/gh".toList

/-- The branch path pattern replaced by the source. -/
def mstrPat : List Char := "/master/".toList

/-- The branch path replacement written by the source. -/
def mstrRep : List Char := "@master/".toList

/-- convert_sprite_url of pokeapi_fetch.py: when the URL is truthy and
contains the raw content host, replace the raw scheme and host by the
CDN one and the master path segment by its CDN form. -/
def convert_sprite_url : Option (List Char) → Option (List Char)
  | none => none
  | some u =>
    if strContains rawHost u then
      some (pyReplace mstrPat mstrRep (pyReplace rawFull cdnGh u))
    else some u

/-- The suffix of a URL after the first scheme separator, as parsed by
urlparse: none when no separator occurs. -/
def afterScheme : List Char → Option (List Char)
  | [] => none
  | c :: rest =>
    if strStarts (':' :: '/' :: '/' :: []) (c :: rest) then some (rest.drop 2)
    else afterScheme rest

/-- Model of urlparse hostname for URLs carrying a scheme and network
location: the network location runs to the first slash, query or
fragment; the hostname drops any user info and port and is
lowercased. -/
def hostnameOf (url : List Char) : Option (List Char) :=
  match afterScheme url with
  | none => none
  | some s =>
    let netloc := s.takeWhile (fun c => c ≠ '/' ∧ c ≠ '?' ∧ c ≠ '#')
    let afterAt := (netloc.reverse.takeWhile (fun c => c ≠ '@')).reverse
    let host := afterAt.takeWhile (fun c => c ≠ ':')
    if host = [] then none else some (host.map Char.toLower)

/-- The canonical sprite rewrite of fetch_and_build_pokedex: rewrite
only when the parsed hostname equals the raw content host. -/
def rewriteCanonicalSprite : Option (List Char) → Option (List Char)
  | none => none
  | some u =>
    if hostnameOf u = some rawHost then
      some (pyReplace mstrPat mstrRep (pyReplace rawFull cdnGh u))
    else some u

/-- A list is a Boolean prefix of itself followed by anything. -/
lemma strStarts_append_self (l t : List Char) : strStarts l (l ++ t) = true := by
  induction l with
  | nil => rfl
  | cons c cs ih => simp [strStarts, ih]

example : convert_sprite_url
    (some "https://raw.githubusercontent.com/PokeAPI/sprites/master/sprites/pokemon/1.png".toList)
    = some "https://cdn.jsdelivr.net/gh/PokeAPI/sprites@master/sprites/pokemon/1.png".toList := by
  decide

example : hostnameOf "https://raw.githubusercontent.com/PokeAPI/x.png".toList
    = some rawHost := by decide

/-- C8: for every sprite URL pointing at the raw content host, both
the variant rewrite convert_sprite_url and the canonical sprite
rewrite store the same rewritten URL, that URL points at the CDN host,
and it no longer points at the raw content host. -/
theorem c8_sprite_cdn_rewrite (rest : List Char) :
    ∃ out, convert_sprite_url (some (rawFull ++ rest)) = some out
      ∧ rewriteCanonicalSprite (some (rawFull ++ rest)) = some out
      ∧ strStarts cdnQ out = true
      ∧ strStarts rawFull out = false := by
  have hinf : strContains rawHost (rawFull ++ rest) = true := rfl
  have hhost : hostnameOf (rawFull ++ rest) = some rawHost := rfl
  have e1 : pyReplace rawFull cdnGh (rawFull ++ rest)
      = cdnGh ++ pyReplace rawFull cdnGh rest := rfl
  have e2 : ∀ s : List Char, pyReplace mstrPat mstrRep (cdnGh ++ s)
      = cdnQ ++ pyReplace mstrPat mstrRep ('/' :: s) := fun s => rfl
  have e4 : ∀ x : List Char, strStarts rawFull (cdnQ ++ x) = false := fun x => rfl
  refine ⟨pyReplace mstrPat mstrRep (pyReplace rawFull cdnGh (rawFull ++ rest)),
    ?_, ?_, ?_, ?_⟩
  · simp [convert_sprite_url, hinf]
  · simp [rewriteCanonicalSprite, hhost]
  · rw [e1, e2]
    exact strStarts_append_self cdnQ _
  · rw [e1, e2]
    exact e4 _

/-! ### Move selector -/

/-- VERSION_PRIORITY of pokeapi_fetch.py, most recent first. -/
def VERSION_PRIORITY : List String :=
  ["scarlet-violet", "sword-shield", "ultra-sun-ultra-moon", "sun-moon",
   "omega-ruby-alpha-sapphire", "x-y", "black-2-white-2", "black-white",
   "heartgold-soulsilver", "platinum", "diamond-pearl",
   "firered-leafgreen", "emerald", "ruby-sapphire",
   "crystal", "gold-silver", "yellow", "red-blue"]

/-- One version_group_details entry of a move: learn method name,
version group name and level learned at. -/
structure VGD where
  method : String
  version : String
  level : Nat
deriving DecidableEq

/-- One entry of the moves list of a creature payload. -/
structure MoveEntry where
  name : String
  url : String
  details : List VGD
deriving DecidableEq

/-- The priority index of a version group: its index in
VERSION_PRIORITY, or the list length when absent, exactly as the
try and except around list.index produces. -/
def prio (v : String) : Nat := VERSION_PRIORITY.indexOf v

/-- The inner selection loop of fetch_and_build_pokedex over
version_group_details, carrying best_version, best_priority and
best_level: a level-up entry with positive level and a strictly
better priority replaces the current best. -/
def selGo : List VGD → Option String → Nat → Nat → Option String × Nat × Nat
  | [], bv, bp, bl => (bv, bp, bl)
  | d :: rest, bv, bp, bl =>
    if d.method == "level-up" then
      if 0 < d.level ∧ prio d.version < bp then
        selGo rest (some d.version) (prio d.version) d.level
      else selGo rest bv bp bl
    else selGo rest bv bp bl

/-- The selected version and level of one move entry, when any
qualifying version exists. -/
def selectBest (m : MoveEntry) : Option (String × Nat) :=
  match selGo m.details none VERSION_PRIORITY.length 0 with
  | (some v, _, l) => some (v, l)
  | (none, _, _) => none

/-- A level_up_moves entry: move name, url and selected level. -/
structure LMove where
  name : String
  url : String
  level : Nat
deriving DecidableEq

/-- The level_up_moves list: moves with a qualifying version, each
with its selected level, in encounter order. -/
def levelUpMoves (moves : List MoveEntry) : List LMove :=
  moves.filterMap (fun m => (selectBest m).map (fun vl => ⟨m.name, m.url, vl.2⟩))

/-- Stable insertion for the sort by level: the inserted element goes
before the first element of greater or equal level, so an element
arriving later never overtakes an equal level one. -/
def insertLM (x : LMove) : List LMove → List LMove
  | [] => [x]
  | y :: ys => if x.level ≤ y.level then x :: y :: ys else y :: insertLM x ys

/-- Stable ascending sort by level, modelling the Python stable
list.sort with a level key. -/
def pySortLM : List LMove → List LMove
  | [] => []
  | x :: rest => insertLM x (pySortLM rest)

/-- The detail payload fetched per kept move.  The localized name and
type fields of the source are omitted; they do not affect which moves
survive. -/
structure MoveDetail where
  name : String
  power : Option Int
  accuracy : Option Int
  pp : Option Int
deriving DecidableEq

/-- One record of the final moves_data list. -/
structure MoveRec where
  name_en : String
  level : Nat
  power : Option Int
  accuracy : Option Int
  pp : Option Int
deriving DecidableEq

/-- The moves_data construction of fetch_and_build_pokedex: sort the
level_up_moves by level, keep the first four, fetch each detail and
drop a move whose detail fetch fails. -/
def buildMoves (fetch : String → Option MoveDetail) (moves : List MoveEntry) :
    List MoveRec :=
  ((pySortLM (levelUpMoves moves)).take 4).filterMap
    (fun mi => (fetch mi.url).map
      (fun d => ⟨d.name, mi.level, d.power, d.accuracy, d.pp⟩))

/-- The qualifying version entries of a move: learned by the level-up
method, at a positive level, in a version present in the priority
list. -/
def qualDetails (details : List VGD) : List VGD :=
  details.filter
    (fun d => d.method == "level-up" && decide (0 < d.level)
      && decide (prio d.version < VERSION_PRIORITY.length))

/-- The claim side selection: fold the qualifying entries keeping the
first one of strictly smallest priority index. -/
def stepMin (acc : Option VGD) (d : VGD) : Option VGD :=
  match acc with
  | none => some d
  | some b => if prio d.version < prio b.version then some d else acc

/-- The accumulator of selGo corresponding to a chosen entry. -/
def accOf : Option VGD → Option String × Nat × Nat
  | none => (none, VERSION_PRIORITY.length, 0)
  | some b => (some b.version, prio b.version, b.level)

/-- The source selection loop computes the first minimum priority
qualifying entry. -/
lemma selGo_eq_fold : ∀ (details : List VGD) (acc : Option VGD),
    (∀ b, acc = some b → prio b.version < VERSION_PRIORITY.length) →
    selGo details (accOf acc).1 (accOf acc).2.1 (accOf acc).2.2
      = accOf ((qualDetails details).foldl stepMin acc) := by
  intro details
  induction details with
  | nil => intro acc _; rfl
  | cons d rest ih =>
    intro acc hacc
    rw [show qualDetails (d :: rest)
        = (d :: rest).filter (fun d => d.method == "level-up" && decide (0 < d.level)
          && decide (prio d.version < VERSION_PRIORITY.length)) from rfl,
      List.filter_cons]
    by_cases hm : d.method == "level-up"
    · by_cases hl : 0 < d.level
      · rcases acc with _ | b
        · by_cases hp : prio d.version < VERSION_PRIORITY.length
          · have hcond : (0 < d.level ∧ prio d.version < (accOf none).2.1) := ⟨hl, hp⟩
            rw [show selGo (d :: rest) (accOf none).1 (accOf none).2.1 (accOf none).2.2
                = selGo rest (some d.version) (prio d.version) d.level by
                  rw [selGo]
                  rw [if_pos hm, if_pos hcond]]
            have hd := ih (some d)
              (by
                intro x hx
                rw [← Option.some.inj hx]
                exact hp)
            simp only [accOf] at hd
            rw [hd]
            simp [hm, hl, hp, stepMin, qualDetails, accOf]
          · have hcond : ¬(0 < d.level ∧ prio d.version < (accOf (none : Option VGD)).2.1) := by
              rintro ⟨_, h2⟩
              exact hp h2
            rw [show selGo (d :: rest) (accOf none).1 (accOf none).2.1 (accOf none).2.2
                = selGo rest (accOf (none : Option VGD)).1 (accOf (none : Option VGD)).2.1
                    (accOf (none : Option VGD)).2.2 by
                  rw [selGo]
                  rw [if_pos hm, if_neg hcond]]
            rw [ih none (by rintro b h; cases h)]
            simp [hm, hl, hp, qualDetails, accOf]
        · have hblt := hacc b rfl
          by_cases hp : prio d.version < prio b.version
          · have hplen : prio d.version < VERSION_PRIORITY.length := hp.trans hblt
            have hcond : (0 < d.level ∧ prio d.version < (accOf (some b)).2.1) := ⟨hl, hp⟩
            rw [show selGo (d :: rest) (accOf (some b)).1 (accOf (some b)).2.1
                (accOf (some b)).2.2
                = selGo rest (some d.version) (prio d.version) d.level by
                  rw [selGo]
                  rw [if_pos hm, if_pos hcond]]
            have hd := ih (some d)
              (by
                intro x hx
                rw [← Option.some.inj hx]
                exact hplen)
            simp only [accOf] at hd
            rw [hd]
            simp [hm, hl, hplen, stepMin, if_pos hp, qualDetails, accOf]
          · have hcond : ¬(0 < d.level ∧ prio d.version < (accOf (some b)).2.1) := by
              rintro ⟨_, h2⟩
              exact hp h2
            rw [show selGo (d :: rest) (accOf (some b)).1 (accOf (some b)).2.1
                (accOf (some b)).2.2
                = selGo rest (accOf (some b)).1 (accOf (some b)).2.1 (accOf (some b)).2.2 by
                  rw [selGo]
                  rw [if_pos hm, if_neg hcond]]
            rw [ih (some b) hacc]
            by_cases hplen : prio d.version < VERSION_PRIORITY.length
            · simp [hm, hl, hplen, stepMin, if_neg hp, qualDetails, accOf]
            · simp [hm, hl, hplen, qualDetails, accOf]
      · have hcond : ∀ bp, ¬(0 < d.level ∧ prio d.version < bp) := by
          rintro bp ⟨h1, _⟩
          exact hl h1
        rw [show selGo (d :: rest) (accOf acc).1 (accOf acc).2.1 (accOf acc).2.2
            = selGo rest (accOf acc).1 (accOf acc).2.1 (accOf acc).2.2 by
              rw [selGo]
              rw [if_pos hm, if_neg (hcond _)]]
        rw [ih acc hacc]
        simp [hm, hl, qualDetails, accOf]
    · rw [show selGo (d :: rest) (accOf acc).1 (accOf acc).2.1 (accOf acc).2.2
          = selGo rest (accOf acc).1 (accOf acc).2.1 (accOf acc).2.2 by
            rw [selGo]
            rw [if_neg (by simpa using hm)]]
      rw [ih acc hacc]
      simp only [Bool.not_eq_true] at hm
      simp [hm, qualDetails, accOf]

/-- stepMin from an empty accumulator takes the entry. -/
lemma stepMin_none (d : VGD) : stepMin none d = some d := rfl

/-- stepMin from a chosen entry keeps the strictly better one. -/
lemma stepMin_some (a d : VGD) :
    stepMin (some a) d = if prio d.version < prio a.version then some d else some a := rfl

/-- Folding stepMin from a chosen entry never loses the choice. -/
lemma foldMin_some_ne_none : ∀ (l : List VGD) (b : VGD),
    l.foldl stepMin (some b) ≠ none := by
  intro l
  induction l with
  | nil => intro b h; cases h
  | cons d rest ih =>
    intro b
    rw [List.foldl_cons, stepMin_some]
    by_cases hp : prio d.version < prio b.version
    · rw [if_pos hp]
      exact ih d
    · rw [if_neg hp]
      exact ih b

/-- The fold yields none exactly when it starts from none and sees no
entry. -/
lemma foldMin_none_iff (l : List VGD) (acc : Option VGD) :
    l.foldl stepMin acc = none ↔ acc = none ∧ l = [] := by
  cases l with
  | nil =>
    simp only [List.foldl_nil]
    exact ⟨fun h => ⟨h, trivial⟩, fun h => h.1⟩
  | cons d rest =>
    rw [List.foldl_cons]
    constructor
    · intro h
      exfalso
      cases acc with
      | none =>
        rw [stepMin_none] at h
        exact foldMin_some_ne_none rest d h
      | some b =>
        rw [stepMin_some] at h
        by_cases hp : prio d.version < prio b.version
        · rw [if_pos hp] at h
          exact foldMin_some_ne_none rest d h
        · rw [if_neg hp] at h
          exact foldMin_some_ne_none rest b h
    · rintro ⟨_, h⟩
      cases h

/-- A chosen entry of the fold comes from the list or the start. -/
lemma foldMin_some_mem : ∀ (l : List VGD) (acc : Option VGD) (b : VGD),
    l.foldl stepMin acc = some b → b ∈ l ∨ acc = some b := by
  intro l
  induction l with
  | nil => intro acc b h; exact Or.inr h
  | cons d rest ih =>
    intro acc b h
    rw [List.foldl_cons] at h
    rcases ih (stepMin acc d) b h with hmem | hacc
    · exact Or.inl (List.mem_cons_of_mem _ hmem)
    · cases acc with
      | none =>
        left
        rw [stepMin_none] at hacc
        rw [← Option.some.inj hacc]
        exact List.mem_cons_self _ _
      | some a =>
        rw [stepMin_some] at hacc
        by_cases hp : prio d.version < prio a.version
        · rw [if_pos hp] at hacc
          left
          rw [← Option.some.inj hacc]
          exact List.mem_cons_self _ _
        · rw [if_neg hp] at hacc
          exact Or.inr hacc

/-- The chosen entry of the fold has the minimal priority index among
the list and the start. -/
lemma foldMin_min : ∀ (l : List VGD) (acc : Option VGD) (b : VGD),
    l.foldl stepMin acc = some b →
    (∀ d ∈ l, prio b.version ≤ prio d.version)
    ∧ (∀ a, acc = some a → prio b.version ≤ prio a.version) := by
  intro l
  induction l with
  | nil =>
    intro acc b h
    refine ⟨fun d hd => absurd hd (List.not_mem_nil d), fun a ha => ?_⟩
    rw [List.foldl_nil] at h
    rw [ha] at h
    rw [Option.some.inj h]
  | cons d rest ih =>
    intro acc b h
    rw [List.foldl_cons] at h
    obtain ⟨ihl, ihacc⟩ := ih (stepMin acc d) b h
    have hbd : prio b.version ≤ prio d.version := by
      cases acc with
      | none => exact ihacc d (stepMin_none d)
      | some a =>
        by_cases hp : prio d.version < prio a.version
        · exact ihacc d (by rw [stepMin_some, if_pos hp])
        · exact (ihacc a (by rw [stepMin_some, if_neg hp])).trans (le_of_not_lt hp)
    refine ⟨fun x hx => ?_, fun a ha => ?_⟩
    · rcases List.mem_cons.mp hx with rfl | hx2
      · exact hbd
      · exact ihl x hx2
    · cases acc with
      | none => cases ha
      | some a0 =>
        have ha0 : a0 = a := Option.some.inj ha
        subst ha0
        by_cases hp : prio d.version < prio a0.version
        · exact hbd.trans (le_of_lt hp)
        · exact ihacc a0 (by rw [stepMin_some, if_neg hp])

/-- The selection over one move yields nothing exactly when the move
has no qualifying version entry. -/
lemma selectBest_none_iff (m : MoveEntry) :
    selectBest m = none ↔ qualDetails m.details = [] := by
  unfold selectBest
  have h := selGo_eq_fold m.details none (by rintro b hb; cases hb)
  simp only [accOf] at h
  rw [h]
  constructor
  · intro hnone
    cases hq : (qualDetails m.details).foldl stepMin none with
    | none => exact ((foldMin_none_iff _ _).mp hq).2
    | some b =>
      rw [hq] at hnone
      simp at hnone
  · intro hq
    rw [hq]
    rfl

/-- The selected pair of a move is a qualifying entry of minimal
priority index. -/
lemma selectBest_some_min (m : MoveEntry) (v : String) (l : Nat) :
    selectBest m = some (v, l) →
    ∃ d ∈ qualDetails m.details, d.version = v ∧ d.level = l
      ∧ ∀ d2 ∈ qualDetails m.details, prio d.version ≤ prio d2.version := by
  intro hsel
  unfold selectBest at hsel
  have h := selGo_eq_fold m.details none (by rintro b h; cases h)
  simp only [accOf] at h
  rw [h] at hsel
  cases hq : (qualDetails m.details).foldl stepMin none with
  | none =>
    rw [hq] at hsel
    cases hsel
  | some b =>
    rw [hq] at hsel
    simp only [Option.some.injEq, Prod.mk.injEq] at hsel
    rcases hsel with ⟨hv, hl⟩
    have hmem : b ∈ qualDetails m.details := by
      rcases foldMin_some_mem _ _ _ hq with hm | hc
      · exact hm
      · cases hc
    exact ⟨b, hmem, hv, hl, (foldMin_min _ _ _ hq).1⟩

/-- Stable insertion is a permutation of consing. -/
lemma insertLM_perm (x : LMove) (l : List LMove) : (insertLM x l).Perm (x :: l) := by
  induction l with
  | nil => rfl
  | cons y ys ih =>
    rw [insertLM]
    by_cases hxy : x.level ≤ y.level
    · rw [if_pos hxy]
    · rw [if_neg hxy]
      exact (ih.cons y).trans (List.Perm.swap x y ys)

/-- Stable insertion preserves sortedness by level. -/
lemma insertLM_sorted (x : LMove) (l : List LMove)
    (h : l.Pairwise (fun a b => a.level ≤ b.level)) :
    (insertLM x l).Pairwise (fun a b => a.level ≤ b.level) := by
  induction l with
  | nil => simp [insertLM]
  | cons y ys ih =>
    rw [insertLM]
    rcases List.pairwise_cons.mp h with ⟨hy, hys⟩
    by_cases hxy : x.level ≤ y.level
    · rw [if_pos hxy]
      refine List.pairwise_cons.mpr ⟨?_, h⟩
      intro z hz
      rcases List.mem_cons.mp hz with rfl | hz2
      · exact hxy
      · exact hxy.trans (hy z hz2)
    · rw [if_neg hxy]
      refine List.pairwise_cons.mpr ⟨?_, ih hys⟩
      intro z hz
      have hz3 := (insertLM_perm x ys).mem_iff.mp hz
      rcases List.mem_cons.mp hz3 with rfl | hz4
      · exact le_of_lt (lt_of_not_le hxy)
      · exact hy z hz4

/-- Stable insertion commutes with filtering one level value. -/
lemma insertLM_filter (x : LMove) (l : List LMove) (k : Nat) :
    (insertLM x l).filter (fun m => m.level == k)
      = (x :: l).filter (fun m => m.level == k) := by
  induction l with
  | nil => rfl
  | cons y ys ih =>
    rw [insertLM]
    by_cases hxy : x.level ≤ y.level
    · rw [if_pos hxy]
    · rw [if_neg hxy]
      have hlt : y.level < x.level := lt_of_not_le hxy
      by_cases hx : x.level = k
      · have hy : ¬ (y.level = k) := by
          intro hy2
          rw [hy2, ← hx] at hlt
          exact lt_irrefl _ hlt
        simp only [List.filter_cons, hx, hy, beq_iff_eq, if_pos, if_neg, decide_eq_true_eq]
        simp only [hy, decide_False, Bool.false_eq_true, if_false, hx, decide_True, if_true]
        rw [ih]
        simp [List.filter_cons, hx, hy]
      · simp only [List.filter_cons, beq_iff_eq]
        by_cases hy : y.level = k
        · simp only [hy, decide_True, if_true, hx, decide_False, Bool.false_eq_true, if_false]
          rw [ih]
          simp [List.filter_cons, hx, hy]
        · simp only [hy, hx, decide_False, Bool.false_eq_true, if_false]
          rw [ih]
          simp [List.filter_cons, hx, hy]

/-- The stable sort is a permutation of its input. -/
lemma pySortLM_perm (l : List LMove) : (pySortLM l).Perm l := by
  induction l with
  | nil => rfl
  | cons x rest ih =>
    rw [pySortLM]
    exact (insertLM_perm x (pySortLM rest)).trans (ih.cons x)

/-- The stable sort is sorted by level. -/
lemma pySortLM_sorted (l : List LMove) :
    (pySortLM l).Pairwise (fun a b => a.level ≤ b.level) := by
  induction l with
  | nil => exact List.Pairwise.nil
  | cons x rest ih =>
    rw [pySortLM]
    exact insertLM_sorted x _ ih

/-- The stable sort preserves the original order of equal levels. -/
lemma pySortLM_stable (l : List LMove) (k : Nat) :
    (pySortLM l).filter (fun m => m.level == k) = l.filter (fun m => m.level == k) := by
  induction l with
  | nil => rfl
  | cons x rest ih =>
    rw [pySortLM, insertLM_filter]
    simp only [List.filter_cons]
    rw [ih]

/-- Dropping entries whose image is none first does not change a
filterMap. -/
lemma filterMap_eq_filter_isSome {α β : Type} (g : α → Option β) (l : List α) :
    l.filterMap g = (l.filter (fun x => (g x).isSome)).filterMap g := by
  induction l with
  | nil => rfl
  | cons x rest ih =>
    cases hgx : g x with
    | none => simp [List.filterMap_cons, List.filter_cons, hgx, ih]
    | some b => simp [List.filterMap_cons, List.filter_cons, hgx, ← ih]

/-- C2: the move selector keeps exactly the moves with a qualifying
level-up entry, selecting a qualifying version of minimal priority
index with its level; a version absent from the priority list has
index equal to the list length and never qualifies; the survivors are
sorted ascending by level by a stable sort and only the first four are
kept; and a failed detail fetch drops exactly that move from the final
list. -/
theorem c2_move_selection (moves : List MoveEntry) (fetch : String → Option MoveDetail) :
    (∀ m : MoveEntry, selectBest m = none ↔ qualDetails m.details = [])
    ∧ (∀ (m : MoveEntry) (v : String) (l : Nat), selectBest m = some (v, l) →
        ∃ d ∈ qualDetails m.details, d.version = v ∧ d.level = l
          ∧ ∀ d2 ∈ qualDetails m.details, prio d.version ≤ prio d2.version)
    ∧ (∀ v : String, prio v < VERSION_PRIORITY.length ↔ v ∈ VERSION_PRIORITY)
    ∧ (pySortLM (levelUpMoves moves)).Pairwise (fun a b => a.level ≤ b.level)
    ∧ (pySortLM (levelUpMoves moves)).Perm (levelUpMoves moves)
    ∧ (∀ k : Nat, (pySortLM (levelUpMoves moves)).filter (fun m => m.level == k)
        = (levelUpMoves moves).filter (fun m => m.level == k))
    ∧ (buildMoves fetch moves).length ≤ 4
    ∧ buildMoves fetch moves
        = (((pySortLM (levelUpMoves moves)).take 4).filter
            (fun mi => (fetch mi.url).isSome)).filterMap
            (fun mi => (fetch mi.url).map
              (fun d => ⟨d.name, mi.level, d.power, d.accuracy, d.pp⟩)) := by
  refine ⟨selectBest_none_iff, fun m v l => selectBest_some_min m v l,
    fun v => List.indexOf_lt_length, pySortLM_sorted _, pySortLM_perm _,
    fun k => pySortLM_stable _ k, ?_, ?_⟩
  · calc (buildMoves fetch moves).length
        ≤ ((pySortLM (levelUpMoves moves)).take 4).length :=
          List.length_filterMap_le _ _
      _ ≤ 4 := by
          rw [List.length_take]
          exact min_le_left _ _
  · unfold buildMoves
    have h := filterMap_eq_filter_isSome
      (fun mi : LMove => (fetch mi.url).map
        (fun d => (⟨d.name, mi.level, d.power, d.accuracy, d.pp⟩ : MoveRec)))
      ((pySortLM (levelUpMoves moves)).take 4)
    have hpred : (fun mi : LMove => ((fetch mi.url).map
        (fun d => (⟨d.name, mi.level, d.power, d.accuracy, d.pp⟩ : MoveRec))).isSome)
        = (fun mi : LMove => (fetch mi.url).isSome) := by
      funext mi
      cases fetch mi.url <;> rfl
    rw [hpred] at h
    exact h

/-- A move learnable at level 1 in an old and a newer prioritized
version, used by the C2 witness. -/
def mW : MoveEntry :=
  ⟨"tackle", "move/33/",
    [⟨"level-up", "red-blue", 1⟩, ⟨"level-up", "sword-shield", 1⟩]⟩

/-- Move list of the C2 witness. -/
def movesW : List MoveEntry := [mW]

/-- Detail fetch oracle of the C2 witness. -/
def fetchW : String → Option MoveDetail :=
  fun u => if u = "move/33/" then some ⟨"tackle", some 40, some 100, some 35⟩ else none

/-- Witness for C2: for a move learned at level 1 both in red-blue
and in sword-shield, the selected pair is the newer sword-shield entry
at level 1, and the final list stays within four moves. -/
theorem c2_move_selection_witness :
    (∃ d ∈ qualDetails mW.details, d.version = "sword-shield" ∧ d.level = 1
      ∧ ∀ d2 ∈ qualDetails mW.details, prio d.version ≤ prio d2.version)
    ∧ (buildMoves fetchW movesW).length ≤ 4 := by
  constructor
  · exact (c2_move_selection movesW fetchW).2.1 mW "sword-shield" 1 (by decide)
  · exact (c2_move_selection movesW fetchW).2.2.2.2.2.2.1

/-! ### Stats construction and validation -/

/-- The six canonical stat keys of the source. -/
def sixStats : List String :=
  ["hp", "attack", "defense", "special-attack", "special-defense", "speed"]

/-- Python dict assignment on an insertion ordered association list:
replace the value of an existing key, else append the new pair. -/
def dictSet (d : List (String × Int)) (k : String) (v : Int) : List (String × Int) :=
  if (d.map Prod.fst).contains k then
    d.map (fun p => if p.1 = k then (k, v) else p)
  else d ++ [(k, v)]

/-- The stats dictionary literal initializing every canonical stat to
zero. -/
def initStats : List (String × Int) :=
  [("hp", 0), ("attack", 0), ("defense", 0),
   ("special-attack", 0), ("special-defense", 0), ("speed", 0)]

/-- The stats loop of fetch_and_build_pokedex: start from the zero
initialized dictionary and write every upstream stat entry over it. -/
def buildStats (payload : List (String × Int)) : List (String × Int) :=
  payload.foldl (fun d p => dictSet d p.1 p.2) initStats

/-- The nested stats check of validate_pokemon_data: when the stats
mapping is nonempty, the canonical keys missing from it. -/
def missingStats (stats : List (String × Int)) : List String :=
  if stats.isEmpty then []
  else sixStats.filter (fun k => !((stats.map Prod.fst).contains k))

/-- dictSet never removes a key. -/
lemma dictSet_keys (d : List (String × Int)) (k' : String) (v : Int) (k : String)
    (h : k ∈ d.map Prod.fst) : k ∈ (dictSet d k' v).map Prod.fst := by
  unfold dictSet
  by_cases hc : (d.map Prod.fst).contains k'
  · rw [if_pos hc]
    rcases List.mem_map.mp h with ⟨p, hp, hpk⟩
    apply List.mem_map.mpr
    refine ⟨if p.1 = k' then (k', v) else p, List.mem_map.mpr ⟨p, hp, rfl⟩, ?_⟩
    by_cases hpk' : p.1 = k'
    · rw [if_pos hpk']
      rw [← hpk, hpk']
    · rw [if_neg hpk']
      exact hpk
  · rw [if_neg hc]
    rw [List.map_append]
    exact List.mem_append_left _ h

/-- Replacing the pairs of one other key leaves a lookup unchanged. -/
lemma lookup_map_replace (k' : String) (v : Int) (k : String) (h : k ≠ k') :
    ∀ d : List (String × Int),
    List.lookup k (d.map (fun p => if p.1 = k' then (k', v) else p)) = List.lookup k d := by
  intro d
  induction d with
  | nil => rfl
  | cons p rest ih =>
    rw [List.map_cons, List.lookup_cons, List.lookup_cons]
    by_cases hpk' : p.1 = k'
    · rw [if_pos hpk']
      have hkk : (k == k') = false := by simp [h]
      have hkp : (k == p.1) = false := by
        rw [hpk']
        simp [h]
      simp only [hkk, hkp]
      exact ih
    · rw [if_neg hpk']
      cases hkp : k == p.1 with
      | true => rfl
      | false =>
        simp only []
        exact ih

/-- dictSet leaves lookups of other keys unchanged. -/
lemma dictSet_lookup_ne (d : List (String × Int)) (k' : String) (v : Int) (k : String)
    (h : k ≠ k') : List.lookup k (dictSet d k' v) = List.lookup k d := by
  unfold dictSet
  by_cases hc : (d.map Prod.fst).contains k'
  · rw [if_pos hc]
    exact lookup_map_replace k' v k h d
  · rw [if_neg hc]
    rw [List.lookup_append]
    cases hd : List.lookup k d with
    | some w => rfl
    | none =>
      simp only [Option.none_or]
      rw [List.lookup_cons]
      have hkk : (k == k') = false := by simp [h]
      rw [hkk]
      rfl

/-- Folding stat writes never removes keys. -/
lemma buildStats_keys_aux : ∀ (payload : List (String × Int)) (d : List (String × Int))
    (k : String), k ∈ d.map Prod.fst →
    k ∈ ((payload.foldl (fun d p => dictSet d p.1 p.2) d).map Prod.fst) := by
  intro payload
  induction payload with
  | nil => intro d k h; exact h
  | cons p rest ih =>
    intro d k h
    rw [List.foldl_cons]
    exact ih _ k (dictSet_keys d p.1 p.2 k h)

/-- Folding stat writes leaves untouched keys at their value. -/
lemma buildStats_lookup_aux : ∀ (payload : List (String × Int)) (d : List (String × Int))
    (k : String), k ∉ payload.map Prod.fst →
    List.lookup k (payload.foldl (fun d p => dictSet d p.1 p.2) d) = List.lookup k d := by
  intro payload
  induction payload with
  | nil => intro d k _; rfl
  | cons p rest ih =>
    intro d k h
    rw [List.map_cons] at h
    rw [List.foldl_cons]
    have h1 : k ≠ p.1 := by
      intro heq
      exact h (by rw [heq]; exact List.mem_cons_self _ _)
    have h2 : k ∉ List.map Prod.fst rest := by
      intro hmem
      exact h (List.mem_cons_of_mem _ hmem)
    rw [ih _ k h2]
    exact dictSet_lookup_ne d p.1 p.2 k h1

/-- Every canonical key starts present with value zero. -/
lemma initStats_complete : ∀ k ∈ sixStats, List.lookup k initStats = some 0 := by decide

/-- C9: for every upstream stats payload, the assembled stats mapping
contains all six canonical keys, the nested stat validation reports no
missing stat, and a stat absent from the payload is stored as zero
rather than omitted. -/
theorem c9_stats_default_zero (payload : List (String × Int)) :
    (∀ k ∈ sixStats, k ∈ (buildStats payload).map Prod.fst)
    ∧ missingStats (buildStats payload) = []
    ∧ (∀ k ∈ sixStats, k ∉ payload.map Prod.fst →
        List.lookup k (buildStats payload) = some 0) := by
  have hkeys : ∀ k ∈ sixStats, k ∈ (buildStats payload).map Prod.fst := by
    intro k hk
    apply buildStats_keys_aux payload initStats k
    have : k ∈ initStats.map Prod.fst := by
      have h0 := initStats_complete k hk
      exact List.mem_map.mpr ⟨(k, 0), lookup_mem h0, rfl⟩
    exact this
  refine ⟨hkeys, ?_, ?_⟩
  · unfold missingStats
    by_cases he : (buildStats payload).isEmpty
    · rw [if_pos he]
    · rw [if_neg he]
      apply List.filter_eq_nil_iff.mpr
      intro k hk
      have hmem := hkeys k hk
      have hcont : ((buildStats payload).map Prod.fst).contains k = true :=
        List.contains_iff_exists_mem_beq.mpr ⟨k, hmem, by simp⟩
      simp only [hcont]
      decide
  · intro k hk hnot
    rw [show buildStats payload
        = payload.foldl (fun d p => dictSet d p.1 p.2) initStats from rfl]
    rw [buildStats_lookup_aux payload initStats k hnot]
    exact initStats_complete k hk

/-- Witness for C9: with a payload carrying only an attack stat, hp is
reported present with value zero and validation reports nothing. -/
theorem c9_stats_default_zero_witness :
    List.lookup "hp" (buildStats [("attack", 100)]) = some 0
    ∧ missingStats (buildStats [("attack", 100)]) = [] := by
  constructor
  · exact (c9_stats_default_zero [("attack", 100)]).2.2 "hp" (by decide) (by decide)
  · exact (c9_stats_default_zero [("attack", 100)]).2.1

/-! ### The main record building loop -/

/-- The claim relevant part of a pokemon payload: id, name, type
names, stats payload and moves list. -/
structure PokemonMain where
  id : Nat
  name : String
  types : List String
  statsPayload : List (String × Int)
  moves : List MoveEntry
deriving DecidableEq

/-- The claim relevant part of a species payload: the evolution chain
url when present. -/
structure SpeciesData where
  evolutionChainUrl : Option String
deriving DecidableEq

/-- The upstream oracles of one pipeline run: the two primary
resources per id, the chain resource per url and the move detail per
url. -/
structure Api where
  pokemonData : Nat → Option PokemonMain
  speciesData : Nat → Option SpeciesData
  chainData : String → Option ChainLink
  moveData : String → Option MoveDetail

/-- The claim relevant fields of one assembled record.  Localized
names, bios, abilities, genus, measurements and sprites are always
set by the source and play no part in the verified claims. -/
structure PokemonObj where
  id : Nat
  name_en : String
  types_en : List String
  stats : List (String × Int)
  moves : List MoveRec
  evolution_chain : List EvoEntry
  weaknesses : List (String × ℚ)
  resistances : List (String × ℚ)
  immunities : List (String × ℚ)
deriving DecidableEq

/-- The nested stats check of validate_pokemon_data on an assembled
record; the top level required fields and the five sprite variants are
present on every assembled record by construction. -/
def validatePokemon (obj : PokemonObj) : List String := missingStats obj.stats

/-- The loop state of fetch_and_build_pokedex: accumulated records,
the evolution chain cache, the log of underlying chain fetches and the
validation error log. -/
structure BuildSt where
  output : List PokemonObj
  cache : List (String × List EvoEntry)
  fetchLog : List String
  validationErrors : List (Nat × List String)

/-- The evolution chain step of one iteration: no url yields the empty
chain, a cached url yields the cached list, and a new url fetches and
walks the chain once, recording it in the cache and in the fetch
log. -/
def getChain (api : Api) (st : BuildSt) : Option String →
    List EvoEntry × List (String × List EvoEntry) × List String
  | none => ([], st.cache, st.fetchLog)
  | some u =>
    match List.lookup u st.cache with
    | some v => (v, st.cache, st.fetchLog)
    | none =>
      let v := fetch_evolution_chain (some u) api.chainData
      (v, st.cache ++ [(u, v)], st.fetchLog ++ [u])

/-- The assembled record of one iteration given its evolution
chain. -/
def buildObj (api : Api) (main : PokemonMain) (chain : List EvoEntry) : PokemonObj :=
  { id := main.id
    name_en := pyCap main.name
    types_en := main.types.map pyCap
    stats := buildStats main.statsPayload
    moves := buildMoves api.moveData main.moves
    evolution_chain := chain
    weaknesses := calculate_weaknesses (main.types.map pyCap)
    resistances := (calculate_resistances (main.types.map pyCap)).1
    immunities := (calculate_resistances (main.types.map pyCap)).2 }

/-- One iteration of fetch_and_build_pokedex: skip the creature when
either primary resource is absent, otherwise assemble the record,
validate it, log any validation failure and append the record
regardless. -/
def buildStep (api : Api) (st : BuildSt) (i : Nat) : BuildSt :=
  match api.pokemonData i, api.speciesData i with
  | some main, some species =>
    let c := getChain api st species.evolutionChainUrl
    let obj := buildObj api main c.1
    let miss := validatePokemon obj
    { output := st.output ++ [obj]
      cache := c.2.1
      fetchLog := c.2.2
      validationErrors :=
        if miss.isEmpty then st.validationErrors
        else st.validationErrors ++ [(i, miss)] }
  | _, _ => st

/-- fetch_and_build_pokedex of pokeapi_fetch.py over the oracles:
process ids one through count in order from an empty state. -/
def fetch_and_build_pokedex (api : Api) (count : Nat) : BuildSt :=
  (List.range' 1 count).foldl (buildStep api) ⟨[], [], [], []⟩

/-- The evolution chain a creature receives, independent of the
cache. -/
def pureChain (api : Api) : Option String → List EvoEntry
  | none => []
  | some u => fetch_evolution_chain (some u) api.chainData

/-- The record one id produces when both primary resources are
present, independent of the loop state. -/
def pureOut (api : Api) (i : Nat) : Option PokemonObj :=
  match api.pokemonData i, api.speciesData i with
  | some main, some species =>
    some (buildObj api main (pureChain api species.evolutionChainUrl))
  | _, _ => none

/-- Lookup fails exactly on keys absent from the association list. -/
lemma lookup_none_iff_key {β : Type} (l : List (String × β)) (k : String) :
    List.lookup k l = none ↔ k ∉ l.map Prod.fst := by
  rw [List.lookup_eq_none_iff]
  constructor
  · intro h hk
    rcases List.mem_map.mp hk with ⟨p, hp, hpk⟩
    have := h p hp
    rw [← hpk] at this
    simp at this
  · intro h p hp
    have : k ≠ p.1 := by
      intro heq
      exact h (List.mem_map.mpr ⟨p, hp, heq.symm⟩)
    simpa using this

/-- The generalized loop invariant: starting from a state whose cache
entries all equal the pure chain resolution and whose fetch log
mirrors the cache keys without duplicates, the loop appends exactly
the pure records, keeps the invariants, and extends the fetch log by
exactly the urls newly referenced by processed creatures. -/
lemma build_fold (api : Api) : ∀ (ids : List Nat) (st : BuildSt),
    (∀ p ∈ st.cache, p.2 = fetch_evolution_chain (some p.1) api.chainData) →
    (∀ u, u ∈ st.fetchLog ↔ u ∈ st.cache.map Prod.fst) →
    st.fetchLog.Nodup →
    (ids.foldl (buildStep api) st).output = st.output ++ ids.filterMap (pureOut api)
    ∧ (∀ p ∈ (ids.foldl (buildStep api) st).cache,
        p.2 = fetch_evolution_chain (some p.1) api.chainData)
    ∧ (∀ u, u ∈ (ids.foldl (buildStep api) st).fetchLog ↔
        u ∈ (ids.foldl (buildStep api) st).cache.map Prod.fst)
    ∧ (ids.foldl (buildStep api) st).fetchLog.Nodup
    ∧ (∀ u, u ∈ (ids.foldl (buildStep api) st).fetchLog ↔
        (u ∈ st.fetchLog ∨ ∃ i ∈ ids, ∃ m s, api.pokemonData i = some m
          ∧ api.speciesData i = some s ∧ s.evolutionChainUrl = some u)) := by
  intro ids
  induction ids with
  | nil =>
    intro st hcache hlog hnodup
    refine ⟨by simp, hcache, hlog, hnodup, fun u => ?_⟩
    simp
  | cons i rest ih =>
    intro st hcache hlog hnodup
    rw [List.foldl_cons]
    cases hmain : api.pokemonData i with
    | none =>
      have hstep : buildStep api st i = st := by
        unfold buildStep
        rw [hmain]
      rw [hstep]
      obtain ⟨h1, h2, h3, h4, h5⟩ := ih st hcache hlog hnodup
      refine ⟨?_, h2, h3, h4, fun u => ?_⟩
      · rw [h1]
        rw [List.filterMap_cons]
        rw [show pureOut api i = none by unfold pureOut; rw [hmain]]
      · rw [h5 u]
        constructor
        · rintro (hu | ⟨j, hj, m, s, hm, hs, hurl⟩)
          · exact Or.inl hu
          · exact Or.inr ⟨j, List.mem_cons_of_mem _ hj, m, s, hm, hs, hurl⟩
        · rintro (hu | ⟨j, hj, m, s, hm, hs, hurl⟩)
          · exact Or.inl hu
          · rcases List.mem_cons.mp hj with rfl | hj2
            · rw [hmain] at hm
              cases hm
            · exact Or.inr ⟨j, hj2, m, s, hm, hs, hurl⟩
    | some main =>
      cases hspec : api.speciesData i with
      | none =>
        have hstep : buildStep api st i = st := by
          unfold buildStep
          rw [hmain, hspec]
        rw [hstep]
        obtain ⟨h1, h2, h3, h4, h5⟩ := ih st hcache hlog hnodup
        refine ⟨?_, h2, h3, h4, fun u => ?_⟩
        · rw [h1]
          rw [List.filterMap_cons]
          rw [show pureOut api i = none by unfold pureOut; rw [hmain, hspec]]
        · rw [h5 u]
          constructor
          · rintro (hu | ⟨j, hj, m, s, hm, hs, hurl⟩)
            · exact Or.inl hu
            · exact Or.inr ⟨j, List.mem_cons_of_mem _ hj, m, s, hm, hs, hurl⟩
          · rintro (hu | ⟨j, hj, m, s, hm, hs, hurl⟩)
            · exact Or.inl hu
            · rcases List.mem_cons.mp hj with rfl | hj2
              · rw [hmain] at hm
                injection hm with hm2
                subst hm2
                rw [hspec] at hs
                cases hs
              · exact Or.inr ⟨j, hj2, m, s, hm, hs, hurl⟩
      | some species =>
        have hstep : buildStep api st i =
            { output := st.output
                ++ [buildObj api main (getChain api st species.evolutionChainUrl).1]
              cache := (getChain api st species.evolutionChainUrl).2.1
              fetchLog := (getChain api st species.evolutionChainUrl).2.2
              validationErrors :=
                if (validatePokemon
                    (buildObj api main (getChain api st species.evolutionChainUrl).1)).isEmpty
                then st.validationErrors
                else st.validationErrors
                  ++ [(i, validatePokemon
                    (buildObj api main (getChain api st species.evolutionChainUrl).1))] } := by
          unfold buildStep
          rw [hmain, hspec]
        have hpure : pureOut api i
            = some (buildObj api main (pureChain api species.evolutionChainUrl)) := by
          unfold pureOut
          rw [hmain, hspec]
        have hchain : (getChain api st species.evolutionChainUrl).1
              = pureChain api species.evolutionChainUrl
            ∧ (∀ p ∈ (getChain api st species.evolutionChainUrl).2.1,
                p.2 = fetch_evolution_chain (some p.1) api.chainData)
            ∧ (∀ u, u ∈ (getChain api st species.evolutionChainUrl).2.2 ↔
                u ∈ (getChain api st species.evolutionChainUrl).2.1.map Prod.fst)
            ∧ (getChain api st species.evolutionChainUrl).2.2.Nodup
            ∧ (∀ u, u ∈ (getChain api st species.evolutionChainUrl).2.2 ↔
                (u ∈ st.fetchLog ∨ species.evolutionChainUrl = some u)) := by
          cases hurl : species.evolutionChainUrl with
          | none =>
            refine ⟨rfl, hcache, hlog, hnodup, fun u => ?_⟩
            rw [getChain]
            constructor
            · intro hu
              exact Or.inl hu
            · rintro (hu | hu)
              · exact hu
              · cases hu
          | some u0 =>
            rw [getChain]
            cases hlk : List.lookup u0 st.cache with
            | some v =>
              have hv : v = fetch_evolution_chain (some u0) api.chainData :=
                hcache (u0, v) (lookup_mem hlk)
              refine ⟨by rw [hv]; rfl, hcache, hlog, hnodup, fun u => ?_⟩
              constructor
              · intro hu
                exact Or.inl hu
              · rintro (hu | hu)
                · exact hu
                · have hkey : u0 ∈ st.cache.map Prod.fst :=
                    List.mem_map.mpr ⟨(u0, v), lookup_mem hlk, rfl⟩
                  have := (hlog u0).mpr hkey
                  rw [← Option.some.inj hu]
                  exact this
            | none =>
              have hnotkey : u0 ∉ st.cache.map Prod.fst :=
                (lookup_none_iff_key _ _).mp hlk
              have hnotlog : u0 ∉ st.fetchLog := fun hu => hnotkey ((hlog u0).mp hu)
              refine ⟨rfl, ?_, ?_, ?_, fun u => ?_⟩
              · intro p hp
                rcases List.mem_append.mp hp with h | h
                · exact hcache p h
                · rcases List.mem_singleton.mp h with rfl
                  rfl
              · intro u
                rw [List.map_append, List.mem_append, List.mem_append]
                simp only [List.map_cons, List.map_nil, List.mem_singleton]
                rw [hlog u]
              · rw [List.nodup_append]
                exact ⟨hnodup, List.nodup_singleton _,
                  by simpa using fun hu => hnotlog hu⟩
              · rw [List.mem_append, List.mem_singleton]
                constructor
                · rintro (hu | rfl)
                  · exact Or.inl hu
                  · exact Or.inr rfl
                · rintro (hu | hu)
                  · exact Or.inl hu
                  · right
                    exact (Option.some.inj hu).symm
        obtain ⟨hc1, hc2, hc3, hc4, hc5⟩ := hchain
        rw [hstep]
        obtain ⟨h1, h2, h3, h4, h5⟩ := ih
          { output := st.output ++ [buildObj api main (getChain api st species.evolutionChainUrl).1]
            cache := (getChain api st species.evolutionChainUrl).2.1
            fetchLog := (getChain api st species.evolutionChainUrl).2.2
            validationErrors :=
              if (validatePokemon
                  (buildObj api main (getChain api st species.evolutionChainUrl).1)).isEmpty
              then st.validationErrors
              else st.validationErrors
                ++ [(i, validatePokemon
                  (buildObj api main (getChain api st species.evolutionChainUrl).1))] }
          hc2 hc3 hc4
        refine ⟨?_, h2, h3, h4, fun u => ?_⟩
        · rw [h1]
          simp only []
          rw [List.filterMap_cons, hpure, hc1]
          simp
        · rw [h5 u]
          simp only []
          rw [hc5 u]
          constructor
          · rintro ((hu | hurl) | ⟨j, hj, m, s, hm, hs, hurl⟩)
            · exact Or.inl hu
            · exact Or.inr ⟨i, List.mem_cons_self _ _, main, species, hmain, hspec, hurl⟩
            · exact Or.inr ⟨j, List.mem_cons_of_mem _ hj, m, s, hm, hs, hurl⟩
          · rintro (hu | ⟨j, hj, m, s, hm, hs, hurl⟩)
            · exact Or.inl (Or.inl hu)
            · rcases List.mem_cons.mp hj with rfl | hj2
              · rw [hmain] at hm
                injection hm with hm2
                subst hm2
                rw [hspec] at hs
                injection hs with hs2
                subst hs2
                exact Or.inl (Or.inr hurl)
              · exact Or.inr ⟨j, hj2, m, s, hm, hs, hurl⟩

/-- A failed chain fetch flattens to the empty list. -/
lemma fetch_chain_none (f : String → Option ChainLink) (u : String) (h : f u = none) :
    fetch_evolution_chain (some u) f = [] := by
  show (match f u with
    | none => []
    | some chain => parseChain [] chain) = []
  rw [h]

/-- The empty starting state satisfies the loop invariants. -/
lemma build_fold_start (api : Api) (count : Nat) :
    (fetch_and_build_pokedex api count).output
      = (List.range' 1 count).filterMap (pureOut api)
    ∧ (∀ p ∈ (fetch_and_build_pokedex api count).cache,
        p.2 = fetch_evolution_chain (some p.1) api.chainData)
    ∧ (∀ u, u ∈ (fetch_and_build_pokedex api count).fetchLog ↔
        u ∈ (fetch_and_build_pokedex api count).cache.map Prod.fst)
    ∧ (fetch_and_build_pokedex api count).fetchLog.Nodup
    ∧ (∀ u, u ∈ (fetch_and_build_pokedex api count).fetchLog ↔
        ∃ i ∈ List.range' 1 count, ∃ m s, api.pokemonData i = some m
          ∧ api.speciesData i = some s ∧ s.evolutionChainUrl = some u) := by
  have h := build_fold api (List.range' 1 count) ⟨[], [], [], []⟩
    (by intro p hp; cases hp)
    (by intro u; constructor <;> (intro h; cases h))
    List.nodup_nil
  obtain ⟨h1, h2, h3, h4, h5⟩ := h
  refine ⟨by simpa using h1, h2, h3, h4, fun u => ?_⟩
  rw [show fetch_and_build_pokedex api count
      = (List.range' 1 count).foldl (buildStep api) ⟨[], [], [], []⟩ from rfl]
  rw [h5 u]
  constructor
  · rintro (hu | hu)
    · cases hu
    · exact hu
  · intro hu
    exact Or.inr hu

/-- C6: a creature is excluded from the output exactly when one of its
two primary resources is absent; when both are present the assembled
record is appended regardless of the validation outcome, which is
never consulted for inclusion. -/
theorem c6_skip_iff_primary_missing (api : Api) (count : Nat) :
    (fetch_and_build_pokedex api count).output
      = (List.range' 1 count).filterMap (pureOut api)
    ∧ (∀ i, (pureOut api i).isSome ↔
        ((api.pokemonData i).isSome ∧ (api.speciesData i).isSome))
    ∧ (∀ i m s, api.pokemonData i = some m → api.speciesData i = some s →
        pureOut api i = some (buildObj api m (pureChain api s.evolutionChainUrl))) := by
  refine ⟨(build_fold_start api count).1, fun i => ?_, fun i m s hm hs => ?_⟩
  · unfold pureOut
    cases hmain : api.pokemonData i with
    | none => simp
    | some m =>
      cases hspec : api.speciesData i with
      | none => simp
      | some s => simp
  · unfold pureOut
    rw [hm, hs]

/-- C4: across one run, at most one underlying chain fetch happens per
url, a fetch for a url happens exactly when some processed creature
with both primary resources references it, every cache entry equals
the pure resolution of its url, and every creature sharing the url
receives exactly that one flattened list. -/
theorem c4_chain_cache_single_fetch (api : Api) (count : Nat) (u : String) :
    (fetch_and_build_pokedex api count).fetchLog.count u ≤ 1
    ∧ ((u ∈ (fetch_and_build_pokedex api count).fetchLog) ↔
        ∃ i ∈ List.range' 1 count, ∃ m s, api.pokemonData i = some m
          ∧ api.speciesData i = some s ∧ s.evolutionChainUrl = some u)
    ∧ (∀ p ∈ (fetch_and_build_pokedex api count).cache,
        p.2 = fetch_evolution_chain (some p.1) api.chainData)
    ∧ (fetch_and_build_pokedex api count).output
        = (List.range' 1 count).filterMap (pureOut api)
    ∧ (∀ i m s, api.pokemonData i = some m → api.speciesData i = some s →
        s.evolutionChainUrl = some u →
        pureOut api i
          = some (buildObj api m (fetch_evolution_chain (some u) api.chainData))) := by
  obtain ⟨h1, h2, h3, h4, h5⟩ := build_fold_start api count
  refine ⟨List.nodup_iff_count_le_one.mp h4 u, h5 u, h2, h1,
    fun i m s hm hs hurl => ?_⟩
  unfold pureOut
  rw [hm, hs]
  show some (buildObj api m (pureChain api s.evolutionChainUrl))
    = some (buildObj api m (fetch_evolution_chain (some u) api.chainData))
  unfold pureChain
  rw [hurl]

/-- C10: when the chain fetch for a url fails, the empty list is
cached for it, no retry happens (still at most one underlying fetch),
and every creature referencing the url receives the empty evolution
chain. -/
theorem c10_failed_chain_cached_empty (api : Api) (count : Nat) (u : String)
    (hfail : api.chainData u = none) :
    (fetch_and_build_pokedex api count).fetchLog.count u ≤ 1
    ∧ (∀ p ∈ (fetch_and_build_pokedex api count).cache, p.1 = u → p.2 = [])
    ∧ (∀ i m s, api.pokemonData i = some m → api.speciesData i = some s →
        s.evolutionChainUrl = some u → pureOut api i = some (buildObj api m []))
    ∧ (fetch_and_build_pokedex api count).output
        = (List.range' 1 count).filterMap (pureOut api) := by
  obtain ⟨h1, h2, h3, h4, h5⟩ := build_fold_start api count
  refine ⟨List.nodup_iff_count_le_one.mp h4 u, fun p hp hpk => ?_,
    fun i m s hm hs hurl => ?_, h1⟩
  · rw [h2 p hp, hpk]
    exact fetch_chain_none api.chainData u hfail
  · unfold pureOut
    rw [hm, hs]
    show some (buildObj api m (pureChain api s.evolutionChainUrl))
      = some (buildObj api m [])
    unfold pureChain
    rw [hurl]
    show some (buildObj api m (fetch_evolution_chain (some u) api.chainData))
      = some (buildObj api m [])
    rw [fetch_chain_none api.chainData u hfail]

/-- First creature payload of the pipeline witnesses. -/
def mainW1 : PokemonMain := ⟨1, "bulbasaur", ["grass", "poison"], [("hp", 45)], []⟩

/-- Second creature payload of the pipeline witnesses. -/
def mainW2 : PokemonMain := ⟨2, "ivysaur", ["grass", "poison"], [], []⟩

/-- Species payload of the pipeline witnesses: both creatures share
one evolution chain url. -/
def specW : SpeciesData := ⟨some "chain/9/"⟩

/-- Oracle set of the pipeline witnesses: creatures one and two are
present, creature three is missing its pokemon resource, and the
shared chain resolves to a one node chain. -/
def apiW : Api :=
  { pokemonData := fun i =>
      if i = 1 then some mainW1 else if i = 2 then some mainW2 else none
    speciesData := fun i => if i = 1 ∨ i = 2 then some specW else none
    chainData := fun u =>
      if u = "chain/9/" then some (.node "bulbasaur" 1 .nil) else none
    moveData := fun _ => none }

/-- Oracle set with a failing chain fetch for the C10 witness. -/
def apiF : Api := { apiW with chainData := fun _ => none }

/-- Witness for C6: over ids one to three, creatures one and two are
kept in order and creature three, missing a primary resource, is
excluded. -/
theorem c6_skip_iff_primary_missing_witness :
    (fetch_and_build_pokedex apiW 3).output.map (fun o => o.id) = [1, 2] := by
  have h := (c6_skip_iff_primary_missing apiW 3).1
  rw [h]
  decide

/-- Witness for C4: the two creatures sharing one chain url cause at
most one underlying fetch, and the fetch does happen. -/
theorem c4_chain_cache_single_fetch_witness :
    (fetch_and_build_pokedex apiW 2).fetchLog.count "chain/9/" ≤ 1
    ∧ "chain/9/" ∈ (fetch_and_build_pokedex apiW 2).fetchLog := by
  constructor
  · exact (c4_chain_cache_single_fetch apiW 2 "chain/9/").1
  · exact (c4_chain_cache_single_fetch apiW 2 "chain/9/").2.1.mpr
      ⟨1, by decide, mainW1, specW, by decide, by decide, rfl⟩

/-- Witness for C10: with every chain fetch failing, the shared url is
fetched at most once and creature one receives the empty evolution
chain. -/
theorem c10_failed_chain_cached_empty_witness :
    (fetch_and_build_pokedex apiF 2).fetchLog.count "chain/9/" ≤ 1
    ∧ pureOut apiF 1 = some (buildObj apiF mainW1 []) := by
  constructor
  · exact (c10_failed_chain_cached_empty apiF 2 "chain/9/" rfl).1
  · exact (c10_failed_chain_cached_empty apiF 2 "chain/9/" rfl).2.2.1 1 mainW1 specW
      (by decide) (by decide) rfl

/-- Flavor entry list of the C5 witness: only a blue version entry in
English, with an embedded newline. -/
def entsW : List FlavorEntry := [⟨"en", "blue", "Seed\ncreature.".toList⟩]

/-- Witness for C5: requesting the red version with only a blue entry
present falls back to the blue text, with its newline normalized to a
space. -/
theorem c5_flavor_text_fallback_witness :
    get_localized_flavor_text entsW "en" "red" = "Seed creature.".toList := by
  have h := (c5_flavor_text_fallback entsW "en" "red").1
  rw [h]
  decide

/-- Witness for C8 at a real sprite path: both rewrites agree, point
at the CDN host and no longer point at the raw content host. -/
theorem c8_sprite_cdn_rewrite_witness :
    ∃ out, convert_sprite_url
        (some (rawFull ++ "PokeAPI/sprites/master/sprites/pokemon/1.png".toList))
        = some out
      ∧ rewriteCanonicalSprite
          (some (rawFull ++ "PokeAPI/sprites/master/sprites/pokemon/1.png".toList))
          = some out
      ∧ strStarts cdnQ out = true
      ∧ strStarts rawFull out = false :=
  c8_sprite_cdn_rewrite "PokeAPI/sprites/master/sprites/pokemon/1.png".toList

end Pokedex
